import Mathlib

/-!
Verification of the image-processing core in `c_imgproc_fns.c`.

The C code is shallowly embedded: `uint32_t` pixels become `Nat` with the
bitwise operations written out (`>>> k`, `&&& 0xFF`, `||| `, and an explicit
`% 2^32` where a C shift could wrap), the row-major pixel buffer becomes a
`List Nat`, and each transform, which fills a caller-supplied output buffer
with one write per linear index, becomes a function returning the output
`Image` whose data list is generated index by index exactly as the loops do.
Out-of-bounds buffer reads (undefined behaviour in C) read a default of `0`;
every theorem below restricts to in-bounds indices, so the default is never
exercised by the stated properties.
-/

/-- Embedding of `struct Image`: a width, a height and a row-major pixel
buffer.  The pixel at `(row, col)` is `data[row * width + col]`. -/
@[ext]
structure Image where
  width : Nat
  height : Nat
  data : List Nat
deriving DecidableEq, Repr

/-- Embedding of `struct PixelAverager`: four channel sums and a count. -/
structure PixelAverager where
  r : Nat
  g : Nat
  b : Nat
  a : Nat
  count : Nat
deriving DecidableEq, Repr

/-- C `rowIndex`: `index / width`. -/
def rowIndex (index width : Nat) : Nat := index / width

/-- C `columnIndex`: `index % width`. -/
def columnIndex (index width : Nat) : Nat := index % width

/-- C `getPixel`: `input_img->data[row * input_img->width + col]`. -/
def getPixel (input_img : Image) (row col : Nat) : Nat :=
  input_img.data.getD (row * input_img.width + col) 0

/-- C `getAlpha`: `pixel & 0xFF`. -/
def getAlpha (pixel : Nat) : Nat := pixel &&& 0xFF

/-- C `getBlue`: `(pixel >> 8) & 0xFF`. -/
def getBlue (pixel : Nat) : Nat := (pixel >>> 8) &&& 0xFF

/-- C `getGreen`: `(pixel >> 16) & 0xFF`. -/
def getGreen (pixel : Nat) : Nat := (pixel >>> 16) &&& 0xFF

/-- C `getRed`: `(pixel >> 24) & 0xFF`. -/
def getRed (pixel : Nat) : Nat := (pixel >>> 24) &&& 0xFF

/-- C `createPixel`: `(red << 24) | (green << 16) | (blue << 8) | alpha`.
The shifts act on `uint32_t`, hence the explicit `% 2^32`. -/
def createPixel (red green blue alpha : Nat) : Nat :=
  ((red <<< 24) % 2^32) ||| ((green <<< 16) % 2^32) ||| ((blue <<< 8) % 2^32) ||| alpha

/-- C `createAveragePixel`: per-channel truncating average of two pixels. -/
def createAveragePixel (pixel_one pixel_two : Nat) : Nat :=
  let avg_red := (getRed pixel_one + getRed pixel_two) / 2
  let avg_green := (getGreen pixel_one + getGreen pixel_two) / 2
  let avg_blue := (getBlue pixel_one + getBlue pixel_two) / 2
  let avg_alpha := (getAlpha pixel_one + getAlpha pixel_two) / 2
  createPixel avg_red avg_green avg_blue avg_alpha

/-- C `quadAveragePixel`: per-channel truncating average of four pixels. -/
def quadAveragePixel (pixel_one pixel_two pixel_three pixel_four : Nat) : Nat :=
  let avg_red := (getRed pixel_one + getRed pixel_two + getRed pixel_three + getRed pixel_four) / 4
  let avg_green :=
    (getGreen pixel_one + getGreen pixel_two + getGreen pixel_three + getGreen pixel_four) / 4
  let avg_blue :=
    (getBlue pixel_one + getBlue pixel_two + getBlue pixel_three + getBlue pixel_four) / 4
  let avg_alpha :=
    (getAlpha pixel_one + getAlpha pixel_two + getAlpha pixel_three + getAlpha pixel_four) / 4
  createPixel avg_red avg_green avg_blue avg_alpha

/-- C `pa_init`: zeroes every field of the averager. -/
def pa_init : PixelAverager := ⟨0, 0, 0, 0, 0⟩

/-- C `pa_update`: adds the pixel's four channels to the sums and increments
the count. -/
def pa_update (pa : PixelAverager) (pixel : Nat) : PixelAverager :=
  { pa with
    r := pa.r + getRed pixel
    g := pa.g + getGreen pixel
    b := pa.b + getBlue pixel
    a := pa.a + getAlpha pixel
    count := pa.count + 1 }

/-- C `pa_update_from_img`: returns the averager unchanged when `(row, col)`
is out of bounds, otherwise accumulates the pixel there.  `row` and `col` are
`int32_t` in C, so they are modelled as `Int`. -/
def pa_update_from_img (img : Image) (row col : Int) (pa : PixelAverager) : PixelAverager :=
  if row < 0 ∨ (img.height : Int) ≤ row ∨ col < 0 ∨ (img.width : Int) ≤ col then pa
  else pa_update pa (img.data.getD (row.toNat * img.width + col.toNat) 0)

/-- C `pa_avg_pixel`: per-channel truncating division of the sums by the
count.  In C a zero count would divide by zero (undefined behaviour), so the
embedding returns `none` in that case. -/
def pa_avg_pixel (pa : PixelAverager) : Option Nat :=
  if pa.count = 0 then none
  else some (createPixel (pa.r / pa.count) (pa.g / pa.count) (pa.b / pa.count) (pa.a / pa.count))

/-- C `imgproc_squash`: the nested loops write
`output[i * out_w + j] = input[(i * yfac) * input.width + (j * xfac)]` for
`i < out_h`, `j < out_w`; the linear index `pos = i * out_w + j` recovers
`i = pos / out_w` and `j = pos % out_w`. -/
def imgproc_squash (input_img : Image) (out_w out_h xfac yfac : Nat) : Image :=
  { width := out_w
    height := out_h
    data := (List.range (out_h * out_w)).map fun pos =>
      let i := pos / out_w
      let j := pos % out_w
      let src_row := i * yfac
      let src_col := j * xfac
      input_img.data.getD (src_row * input_img.width + src_col) 0 }

/-- C `imgproc_color_rot`: for every linear index, the output pixel is
`createPixel(getBlue p, getRed p, getGreen p, getAlpha p)` of the input pixel
`p` at the same index. -/
def imgproc_color_rot (input_img : Image) : Image :=
  { width := input_img.width
    height := input_img.height
    data := (List.range (input_img.width * input_img.height)).map fun i =>
      let my_pixel := input_img.data.getD i 0
      createPixel (getBlue my_pixel) (getRed my_pixel) (getGreen my_pixel) (getAlpha my_pixel) }

/-- Channel accumulation of `imgproc_blur`'s window loops at output pixel
`(i, j)`.  The C offsets `k, l` run over `[-blur_dist, blur_dist]`; here they
are shifted by `blur_dist` to `[0, 2*blur_dist]`, so the C cell
`(i + k, j + l)` is `(i + k - blur_dist, j + l - blur_dist)` and the C bounds
test `currX >= 0 && currX < rows && currY >= 0 && currY < cols` becomes the
guard shown.  `sh` is the channel's bit position (24 red, 16 green, 8 blue),
matching the C lines `red += (pixel >> 24) & 0xFF;` and so on. -/
def blurChannelSum (input_img : Image) (blur_dist i j sh : Nat) : Nat :=
  ∑ k ∈ Finset.range (2 * blur_dist + 1), ∑ l ∈ Finset.range (2 * blur_dist + 1),
    if blur_dist ≤ i + k ∧ i + k - blur_dist < input_img.height ∧
        blur_dist ≤ j + l ∧ j + l - blur_dist < input_img.width then
      (input_img.data.getD ((i + k - blur_dist) * input_img.width + (j + l - blur_dist)) 0
          >>> sh) &&& 0xFF
    else 0

/-- Contributor count of `imgproc_blur`'s window loops at output pixel
`(i, j)`: the C variable `total`, incremented once per in-bounds cell. -/
def blurTotal (input_img : Image) (blur_dist i j : Nat) : Nat :=
  ∑ k ∈ Finset.range (2 * blur_dist + 1), ∑ l ∈ Finset.range (2 * blur_dist + 1),
    if blur_dist ≤ i + k ∧ i + k - blur_dist < input_img.height ∧
        blur_dist ≤ j + l ∧ j + l - blur_dist < input_img.width then 1 else 0

/-- C `imgproc_blur`: each output pixel packs the truncated channel averages
`red/total`, `green/total`, `blue/total` with the input pixel's alpha, via
`(r << 24)|(g << 16)|(b << 8)|alpha` on `uint32_t`. -/
def imgproc_blur (input_img : Image) (blur_dist : Nat) : Image :=
  { width := input_img.width
    height := input_img.height
    data := (List.range (input_img.height * input_img.width)).map fun pos =>
      let i := pos / input_img.width
      let j := pos % input_img.width
      let red := blurChannelSum input_img blur_dist i j 24
      let green := blurChannelSum input_img blur_dist i j 16
      let blue := blurChannelSum input_img blur_dist i j 8
      let total := blurTotal input_img blur_dist i j
      let alpha := input_img.data.getD (i * input_img.width + j) 0 &&& 0xFF
      let r := red / total
      let g := green / total
      let b := blue / total
      ((r <<< 24) % 2^32) ||| ((g <<< 16) % 2^32) ||| ((b <<< 8) % 2^32) ||| alpha }

/-- Loop body of C `imgproc_expand` at output coordinate `(row, col)`,
following the source's branch order exactly. -/
def expandPixel (input_img : Image) (row col : Nat) : Nat :=
  let right_edge := col / 2 + 1 ≥ input_img.width
  let bottom_edge := row / 2 + 1 ≥ input_img.height
  let pixel_original := getPixel input_img (row / 2) (col / 2)
  if row % 2 = 0 ∧ col % 2 = 0 then
    pixel_original
  else if col % 2 ≠ 0 ∧ row % 2 = 0 then
    if right_edge then pixel_original
    else createAveragePixel pixel_original (getPixel input_img (row / 2) (col / 2 + 1))
  else if row % 2 ≠ 0 ∧ col % 2 = 0 then
    if bottom_edge then pixel_original
    else createAveragePixel pixel_original (getPixel input_img (row / 2 + 1) (col / 2))
  else if ¬right_edge ∧ ¬bottom_edge then
    quadAveragePixel pixel_original (getPixel input_img (row / 2) (col / 2 + 1))
      (getPixel input_img (row / 2 + 1) (col / 2))
      (getPixel input_img (row / 2 + 1) (col / 2 + 1))
  else if ¬right_edge then
    createAveragePixel pixel_original (getPixel input_img (row / 2) (col / 2 + 1))
  else if ¬bottom_edge then
    createAveragePixel pixel_original (getPixel input_img (row / 2 + 1) (col / 2))
  else
    pixel_original

/-- C `imgproc_expand`: one pass over the linear indices of the output
buffer, whose dimensions `out_w`, `out_h` are supplied by the caller. -/
def imgproc_expand (input_img : Image) (out_w out_h : Nat) : Image :=
  { width := out_w
    height := out_h
    data := (List.range (out_w * out_h)).map fun i =>
      expandPixel input_img (rowIndex i out_w) (columnIndex i out_w) }

/-- Modelled from the spec's words (for comparison with `imgproc_blur`): the
set of in-bounds pixel coordinates of the blur window
`[row - blur_dist, row + blur_dist] × [col - blur_dist, col + blur_dist]`;
in `Nat`, the lower bound `row - blur_dist ≤ x` is written
`row ≤ x + blur_dist`. -/
def blurWindow (height width blur_dist row col : Nat) : Finset (Nat × Nat) :=
  (Finset.range height ×ˢ Finset.range width).filter
    (fun c => row ≤ c.1 + blur_dist ∧ c.1 ≤ row + blur_dist ∧
      col ≤ c.2 + blur_dist ∧ c.2 ≤ col + blur_dist)

/-- Modelled from the spec's words (for comparison with `imgproc_expand`):
with `r = row / 2`, `c = col / 2`, `right_edge = (c + 1 ≥ source.width)` and
`bottom_edge = (r + 1 ≥ source.height)`, the claimed parity/edge dispatch:
even/even copies `source(r, c)`; even row with odd column averages with the
right neighbour unless at the right edge; odd row with even column averages
with the neighbour below unless at the bottom edge; odd/odd takes the 4-way
average when at neither edge, the 2-way average with the pixel below when
only at the right edge, the 2-way average with the pixel to the right when
only at the bottom edge, and the bare `source(r, c)` at both edges. -/
def expandSpec (source : Image) (row col : Nat) : Nat :=
  let r := row / 2
  let c := col / 2
  let right_edge := c + 1 ≥ source.width
  let bottom_edge := r + 1 ≥ source.height
  if row % 2 = 0 then
    if col % 2 = 0 then getPixel source r c
    else if right_edge then getPixel source r c
    else createAveragePixel (getPixel source r c) (getPixel source r (c + 1))
  else
    if col % 2 = 0 then
      if bottom_edge then getPixel source r c
      else createAveragePixel (getPixel source r c) (getPixel source (r + 1) c)
    else
      if ¬right_edge ∧ ¬bottom_edge then
        quadAveragePixel (getPixel source r c) (getPixel source r (c + 1))
          (getPixel source (r + 1) c) (getPixel source (r + 1) (c + 1))
      else if right_edge ∧ ¬bottom_edge then
        createAveragePixel (getPixel source r c) (getPixel source (r + 1) c)
      else if bottom_edge ∧ ¬right_edge then
        createAveragePixel (getPixel source r c) (getPixel source r (c + 1))
      else getPixel source r c

/-! ### Arithmetic facts about the pixel codec -/

/-- Bitwise or of disjoint fields is addition: if the low `n` bits of the
left operand are clear and the right operand fits in `n` bits, `|||` adds. -/
theorem lor_mul_pow_eq_add (n : Nat) : ∀ a b : Nat, b < 2^n → (a * 2^n) ||| b = a * 2^n + b := by
  induction n with
  | zero =>
    intro a b hb
    interval_cases b
    simp
  | succ n ih =>
    intro a b hb
    have hb2 : b / 2 < 2^n := by omega
    have h1 : a * 2^(n+1) = Nat.bit false (a * 2^n) := by
      simp [Nat.bit]
      ring
    have h2 : b = Nat.bit (b % 2 = 1) (b / 2) := by
      rcases Nat.mod_two_eq_zero_or_one b with h | h <;> simp [Nat.bit, h] <;> omega
    rw [h1, h2, Nat.lor_bit, ih _ _ hb2]
    rcases Nat.mod_two_eq_zero_or_one b with h | h <;> simp [Nat.bit, h] <;> ring_nf

/-- Alpha extraction as arithmetic: `pixel & 0xFF` is `pixel % 256`. -/
theorem getAlpha_eq (pixel : Nat) : getAlpha pixel = pixel % 256 := by
  have h := Nat.and_pow_two_sub_one_eq_mod pixel 8
  norm_num at h
  exact h

/-- Blue extraction as arithmetic. -/
theorem getBlue_eq (pixel : Nat) : getBlue pixel = pixel / 256 % 256 := by
  unfold getBlue
  rw [Nat.shiftRight_eq_div_pow]
  have h := Nat.and_pow_two_sub_one_eq_mod (pixel / 2^8) 8
  norm_num at h ⊢
  exact h

/-- Green extraction as arithmetic. -/
theorem getGreen_eq (pixel : Nat) : getGreen pixel = pixel / 65536 % 256 := by
  unfold getGreen
  rw [Nat.shiftRight_eq_div_pow]
  have h := Nat.and_pow_two_sub_one_eq_mod (pixel / 2^16) 8
  norm_num at h ⊢
  exact h

/-- Red extraction as arithmetic. -/
theorem getRed_eq (pixel : Nat) : getRed pixel = pixel / 16777216 % 256 := by
  unfold getRed
  rw [Nat.shiftRight_eq_div_pow]
  have h := Nat.and_pow_two_sub_one_eq_mod (pixel / 2^24) 8
  norm_num at h ⊢
  exact h

/-- Every extracted channel is an 8-bit value. -/
theorem channels_lt (pixel : Nat) :
    getRed pixel < 256 ∧ getGreen pixel < 256 ∧ getBlue pixel < 256 ∧ getAlpha pixel < 256 := by
  rw [getRed_eq, getGreen_eq, getBlue_eq, getAlpha_eq]
  omega

/-- With in-range channels, `createPixel` is plain positional arithmetic. -/
theorem createPixel_eq_add (red green blue alpha : Nat)
    (hr : red < 256) (hg : green < 256) (hb : blue < 256) (ha : alpha < 256) :
    createPixel red green blue alpha = red * 16777216 + green * 65536 + blue * 256 + alpha := by
  unfold createPixel
  rw [Nat.shiftLeft_eq, Nat.shiftLeft_eq, Nat.shiftLeft_eq]
  norm_num
  rw [Nat.mod_eq_of_lt (by omega : red * 16777216 < 4294967296),
    Nat.mod_eq_of_lt (by omega : green * 65536 < 4294967296),
    Nat.mod_eq_of_lt (by omega : blue * 256 < 4294967296)]
  have l1 : (red * 16777216) ||| (green * 65536) = red * 16777216 + green * 65536 := by
    have h := lor_mul_pow_eq_add 24 red (green * 65536) (by norm_num; omega)
    norm_num at h
    exact h
  have l2 : (red * 16777216 + green * 65536) ||| (blue * 256) =
      red * 16777216 + green * 65536 + blue * 256 := by
    have e : red * 16777216 + green * 65536 = (red * 256 + green) * 65536 := by ring
    have h := lor_mul_pow_eq_add 16 (red * 256 + green) (blue * 256) (by norm_num; omega)
    norm_num at h
    rw [e, h]
  have l3 : (red * 16777216 + green * 65536 + blue * 256) ||| alpha =
      red * 16777216 + green * 65536 + blue * 256 + alpha := by
    have e : red * 16777216 + green * 65536 + blue * 256 =
        (red * 65536 + green * 256 + blue) * 256 := by ring
    have h := lor_mul_pow_eq_add 8 (red * 65536 + green * 256 + blue) alpha (by norm_num; omega)
    norm_num at h
    rw [e, h]
  rw [l1, l2, l3]

/-- With in-range channels, the packed pixel is a 32-bit value. -/
theorem createPixel_lt (red green blue alpha : Nat)
    (hr : red < 256) (hg : green < 256) (hb : blue < 256) (ha : alpha < 256) :
    createPixel red green blue alpha < 2^32 := by
  rw [createPixel_eq_add red green blue alpha hr hg hb ha]
  norm_num
  omega

/-- Extraction after packing recovers each channel. -/
theorem channels_createPixel (red green blue alpha : Nat)
    (hr : red < 256) (hg : green < 256) (hb : blue < 256) (ha : alpha < 256) :
    getRed (createPixel red green blue alpha) = red ∧
    getGreen (createPixel red green blue alpha) = green ∧
    getBlue (createPixel red green blue alpha) = blue ∧
    getAlpha (createPixel red green blue alpha) = alpha := by
  rw [getRed_eq, getGreen_eq, getBlue_eq, getAlpha_eq,
    createPixel_eq_add red green blue alpha hr hg hb ha]
  omega

/-- Packing the four extracted channels of a 32-bit value restores it. -/
theorem createPixel_channels (pixel : Nat) (hp : pixel < 2^32) :
    createPixel (getRed pixel) (getGreen pixel) (getBlue pixel) (getAlpha pixel) = pixel := by
  obtain ⟨h1, h2, h3, h4⟩ := channels_lt pixel
  rw [createPixel_eq_add _ _ _ _ h1 h2 h3 h4, getRed_eq, getGreen_eq, getBlue_eq, getAlpha_eq]
  norm_num at hp
  omega

/-! ### Indexing facts about the generated buffers -/

/-- Reading the generated output buffer at an in-range linear index. -/
theorem getD_map_range (n i : Nat) (f : Nat → Nat) (h : i < n) :
    ((List.range n).map f).getD i 0 = f i := by
  rw [List.getD_eq_getElem?_getD, List.getElem?_map, List.getElem?_range h]
  rfl

/-- A buffer regenerated index by index from its own reads is itself. -/
theorem map_range_getD_eq (l : List Nat) (n : Nat) (h : l.length = n) :
    (List.range n).map (fun i => l.getD i 0) = l := by
  subst h
  apply List.ext_getElem
  · simp
  · intro i h1 h2
    simp [List.getD_eq_getElem?_getD, List.getElem?_eq_getElem h2]

/-- Channel values of a 2-way averaged pixel. -/
theorem createAveragePixel_channels (pixel_one pixel_two : Nat) :
    getRed (createAveragePixel pixel_one pixel_two) = (getRed pixel_one + getRed pixel_two) / 2 ∧
    getGreen (createAveragePixel pixel_one pixel_two) =
      (getGreen pixel_one + getGreen pixel_two) / 2 ∧
    getBlue (createAveragePixel pixel_one pixel_two) =
      (getBlue pixel_one + getBlue pixel_two) / 2 ∧
    getAlpha (createAveragePixel pixel_one pixel_two) =
      (getAlpha pixel_one + getAlpha pixel_two) / 2 := by
  obtain ⟨r1, g1, b1, a1⟩ := channels_lt pixel_one
  obtain ⟨r2, g2, b2, a2⟩ := channels_lt pixel_two
  exact channels_createPixel _ _ _ _ (by omega) (by omega) (by omega) (by omega)

/-- Channel values of a 4-way averaged pixel. -/
theorem quadAveragePixel_channels (pixel_one pixel_two pixel_three pixel_four : Nat) :
    getRed (quadAveragePixel pixel_one pixel_two pixel_three pixel_four) =
      (getRed pixel_one + getRed pixel_two + getRed pixel_three + getRed pixel_four) / 4 ∧
    getGreen (quadAveragePixel pixel_one pixel_two pixel_three pixel_four) =
      (getGreen pixel_one + getGreen pixel_two + getGreen pixel_three + getGreen pixel_four) / 4 ∧
    getBlue (quadAveragePixel pixel_one pixel_two pixel_three pixel_four) =
      (getBlue pixel_one + getBlue pixel_two + getBlue pixel_three + getBlue pixel_four) / 4 ∧
    getAlpha (quadAveragePixel pixel_one pixel_two pixel_three pixel_four) =
      (getAlpha pixel_one + getAlpha pixel_two + getAlpha pixel_three + getAlpha pixel_four) / 4 := by
  obtain ⟨r1, g1, b1, a1⟩ := channels_lt pixel_one
  obtain ⟨r2, g2, b2, a2⟩ := channels_lt pixel_two
  obtain ⟨r3, g3, b3, a3⟩ := channels_lt pixel_three
  obtain ⟨r4, g4, b4, a4⟩ := channels_lt pixel_four
  exact channels_createPixel _ _ _ _ (by omega) (by omega) (by omega) (by omega)

/-! ### Claim C10: the pixel codec round-trips -/

/-- C10: repacking the four extracted channels of any 32-bit pixel
reconstructs it exactly, and each extractor applied to
`createPixel r g b a` with 8-bit channel inputs returns that input. -/
theorem pixel_codec_round_trip :
    (∀ pixel : Nat, pixel < 2^32 →
      createPixel (getRed pixel) (getGreen pixel) (getBlue pixel) (getAlpha pixel) = pixel) ∧
    (∀ red green blue alpha : Nat, red < 256 → green < 256 → blue < 256 → alpha < 256 →
      getRed (createPixel red green blue alpha) = red ∧
      getGreen (createPixel red green blue alpha) = green ∧
      getBlue (createPixel red green blue alpha) = blue ∧
      getAlpha (createPixel red green blue alpha) = alpha) :=
  ⟨createPixel_channels, channels_createPixel⟩

/-- Closed instance of the codec round trip. -/
theorem pixel_codec_round_trip_witness :
    createPixel (getRed 0xAABBCCDD) (getGreen 0xAABBCCDD) (getBlue 0xAABBCCDD)
        (getAlpha 0xAABBCCDD) = 0xAABBCCDD ∧
    getRed (createPixel 17 34 51 68) = 17 :=
  ⟨pixel_codec_round_trip.1 0xAABBCCDD (by norm_num),
   (pixel_codec_round_trip.2 17 34 51 68 (by norm_num) (by norm_num) (by norm_num)
      (by norm_num)).1⟩

/-! ### Claim C7: the averagers truncate toward zero -/

/-- C7: the 2-way and 4-way averagers compute every output channel as the
per-channel sum divided by 2 (respectively 4) with integer truncation and no
rounding adjustment; averaging red channels 3 and 4 yields red 3 in both. -/
theorem averagers_truncate :
    (∀ pixel_one pixel_two : Nat,
      getRed (createAveragePixel pixel_one pixel_two) =
        (getRed pixel_one + getRed pixel_two) / 2 ∧
      getGreen (createAveragePixel pixel_one pixel_two) =
        (getGreen pixel_one + getGreen pixel_two) / 2 ∧
      getBlue (createAveragePixel pixel_one pixel_two) =
        (getBlue pixel_one + getBlue pixel_two) / 2 ∧
      getAlpha (createAveragePixel pixel_one pixel_two) =
        (getAlpha pixel_one + getAlpha pixel_two) / 2) ∧
    (∀ pixel_one pixel_two pixel_three pixel_four : Nat,
      getRed (quadAveragePixel pixel_one pixel_two pixel_three pixel_four) =
        (getRed pixel_one + getRed pixel_two + getRed pixel_three + getRed pixel_four) / 4 ∧
      getGreen (quadAveragePixel pixel_one pixel_two pixel_three pixel_four) =
        (getGreen pixel_one + getGreen pixel_two + getGreen pixel_three +
          getGreen pixel_four) / 4 ∧
      getBlue (quadAveragePixel pixel_one pixel_two pixel_three pixel_four) =
        (getBlue pixel_one + getBlue pixel_two + getBlue pixel_three + getBlue pixel_four) / 4 ∧
      getAlpha (quadAveragePixel pixel_one pixel_two pixel_three pixel_four) =
        (getAlpha pixel_one + getAlpha pixel_two + getAlpha pixel_three +
          getAlpha pixel_four) / 4) ∧
    getRed (createAveragePixel (createPixel 3 0 0 0) (createPixel 4 0 0 0)) = 3 ∧
    getRed (quadAveragePixel (createPixel 3 0 0 0) (createPixel 4 0 0 0)
      (createPixel 3 0 0 0) (createPixel 4 0 0 0)) = 3 := by
  refine ⟨createAveragePixel_channels, quadAveragePixel_channels, ?_, ?_⟩
  · decide
  · decide

/-- Row-major index bound: an in-bounds `(row, col)` gives an in-range
linear index. -/
theorem index_lt (row col w h : Nat) (hr : row < h) (hc : col < w) :
    row * w + col < w * h := by
  calc row * w + col < (row + 1) * w := by rw [Nat.succ_mul]; omega
    _ ≤ h * w := Nat.mul_le_mul_right _ hr
    _ = w * h := Nat.mul_comm _ _

/-- Output buffer length of the channel rotation. -/
theorem color_rot_length (img : Image) :
    (imgproc_color_rot img).data.length = img.width * img.height := by
  simp [imgproc_color_rot]

/-- Reading the channel rotation's output buffer at an in-range index. -/
theorem color_rot_getD (img : Image) (i : Nat) (h : i < img.width * img.height) :
    (imgproc_color_rot img).data.getD i 0 =
      createPixel (getBlue (img.data.getD i 0)) (getRed (img.data.getD i 0))
        (getGreen (img.data.getD i 0)) (getAlpha (img.data.getD i 0)) :=
  getD_map_range _ _ _ h

/-! ### Claim C8: per-pixel behaviour of the channel rotation -/

/-- C8: the channel rotation writes, at the same position in a
same-dimension destination, a pixel whose red is the input's blue, green is
the input's red, blue is the input's green, and alpha is unchanged. -/
theorem color_rot_channels (input_img : Image) (row col : Nat)
    (hr : row < input_img.height) (hc : col < input_img.width) :
    (imgproc_color_rot input_img).width = input_img.width ∧
    (imgproc_color_rot input_img).height = input_img.height ∧
    getRed (getPixel (imgproc_color_rot input_img) row col) =
      getBlue (getPixel input_img row col) ∧
    getGreen (getPixel (imgproc_color_rot input_img) row col) =
      getRed (getPixel input_img row col) ∧
    getBlue (getPixel (imgproc_color_rot input_img) row col) =
      getGreen (getPixel input_img row col) ∧
    getAlpha (getPixel (imgproc_color_rot input_img) row col) =
      getAlpha (getPixel input_img row col) := by
  have hidx := index_lt row col input_img.width input_img.height hr hc
  have hpix : getPixel (imgproc_color_rot input_img) row col =
      createPixel (getBlue (getPixel input_img row col)) (getRed (getPixel input_img row col))
        (getGreen (getPixel input_img row col)) (getAlpha (getPixel input_img row col)) :=
    getD_map_range _ _ _ hidx
  obtain ⟨c1, c2, c3, c4⟩ := channels_lt (getPixel input_img row col)
  have h := channels_createPixel _ _ _ _ c3 c1 c2 c4
  exact ⟨rfl, rfl, by rw [hpix]; exact h.1, by rw [hpix]; exact h.2.1,
    by rw [hpix]; exact h.2.2.1, by rw [hpix]; exact h.2.2.2⟩

/-- Closed instance of the channel-rotation pixel property. -/
theorem color_rot_channels_witness :
    (imgproc_color_rot ⟨2, 1, [0xAABBCCDD, 0x11223344]⟩).width = 2 ∧
    (imgproc_color_rot ⟨2, 1, [0xAABBCCDD, 0x11223344]⟩).height = 1 ∧
    getRed (getPixel (imgproc_color_rot ⟨2, 1, [0xAABBCCDD, 0x11223344]⟩) 0 1) =
      getBlue (getPixel ⟨2, 1, [0xAABBCCDD, 0x11223344]⟩ 0 1) ∧
    getGreen (getPixel (imgproc_color_rot ⟨2, 1, [0xAABBCCDD, 0x11223344]⟩) 0 1) =
      getRed (getPixel ⟨2, 1, [0xAABBCCDD, 0x11223344]⟩ 0 1) ∧
    getBlue (getPixel (imgproc_color_rot ⟨2, 1, [0xAABBCCDD, 0x11223344]⟩) 0 1) =
      getGreen (getPixel ⟨2, 1, [0xAABBCCDD, 0x11223344]⟩ 0 1) ∧
    getAlpha (getPixel (imgproc_color_rot ⟨2, 1, [0xAABBCCDD, 0x11223344]⟩) 0 1) =
      getAlpha (getPixel ⟨2, 1, [0xAABBCCDD, 0x11223344]⟩ 0 1) :=
  color_rot_channels ⟨2, 1, [0xAABBCCDD, 0x11223344]⟩ 0 1 (by decide) (by decide)

/-! ### Claim C9: the averager accumulate operation -/

/-- C9: `pa_update_from_img` leaves the averager completely unchanged on any
out-of-bounds coordinate, and on an in-bounds coordinate adds the pixel's
four channels to the sums and increments the count by exactly one. -/
theorem pa_update_from_img_spec :
    (∀ (img : Image) (pa : PixelAverager) (row col : Int),
      (row < 0 ∨ (img.height : Int) ≤ row ∨ col < 0 ∨ (img.width : Int) ≤ col) →
      pa_update_from_img img row col pa = pa) ∧
    (∀ (img : Image) (pa : PixelAverager) (row col : Int),
      0 ≤ row → row < (img.height : Int) → 0 ≤ col → col < (img.width : Int) →
      pa_update_from_img img row col pa =
        { r := pa.r + getRed (getPixel img row.toNat col.toNat)
          g := pa.g + getGreen (getPixel img row.toNat col.toNat)
          b := pa.b + getBlue (getPixel img row.toNat col.toNat)
          a := pa.a + getAlpha (getPixel img row.toNat col.toNat)
          count := pa.count + 1 }) := by
  constructor
  · intro img pa row col h
    unfold pa_update_from_img
    rw [if_pos h]
  · intro img pa row col h1 h2 h3 h4
    unfold pa_update_from_img
    rw [if_neg (by omega)]
    rfl

/-- Closed instance of the accumulate specification: one out-of-bounds skip
and one in-bounds accumulation. -/
theorem pa_update_from_img_spec_witness :
    pa_update_from_img ⟨1, 1, [0xAABBCCDD]⟩ (-1) 0 pa_init = pa_init ∧
    pa_update_from_img ⟨1, 1, [0xAABBCCDD]⟩ 0 0 pa_init =
      { r := pa_init.r + getRed (getPixel ⟨1, 1, [0xAABBCCDD]⟩ 0 0)
        g := pa_init.g + getGreen (getPixel ⟨1, 1, [0xAABBCCDD]⟩ 0 0)
        b := pa_init.b + getBlue (getPixel ⟨1, 1, [0xAABBCCDD]⟩ 0 0)
        a := pa_init.a + getAlpha (getPixel ⟨1, 1, [0xAABBCCDD]⟩ 0 0)
        count := pa_init.count + 1 } :=
  ⟨pa_update_from_img_spec.1 ⟨1, 1, [0xAABBCCDD]⟩ pa_init (-1) 0 (Or.inl (by norm_num)),
   pa_update_from_img_spec.2 ⟨1, 1, [0xAABBCCDD]⟩ pa_init 0 0 (by norm_num) (by norm_num)
     (by norm_num) (by norm_num)⟩

/-! ### Claim C4: three channel rotations are the identity -/

/-- C4: applying the channel rotation three times in succession returns the
original image pixel for pixel. -/
theorem color_rot_three_cycle (input_img : Image)
    (hlen : input_img.data.length = input_img.width * input_img.height)
    (hdata : ∀ p ∈ input_img.data, p < 2^32) :
    imgproc_color_rot (imgproc_color_rot (imgproc_color_rot input_img)) = input_img := by
  refine Image.ext rfl rfl ?_
  apply List.ext_getElem
  · rw [color_rot_length]
    exact hlen.symm
  · intro i h1 h2
    have hi : i < input_img.width * input_img.height := by
      rw [color_rot_length] at h1
      exact h1
    rw [← List.getD_eq_getElem
        (imgproc_color_rot (imgproc_color_rot (imgproc_color_rot input_img))).data 0 h1,
      ← List.getD_eq_getElem input_img.data 0 h2,
      color_rot_getD (imgproc_color_rot (imgproc_color_rot input_img)) i hi,
      color_rot_getD (imgproc_color_rot input_img) i hi,
      color_rot_getD input_img i hi]
    set p := input_img.data.getD i 0 with hp_def
    have hpmem : p ∈ input_img.data := by
      rw [hp_def, List.getD_eq_getElem input_img.data 0 h2]
      exact List.getElem_mem h2
    have hp : p < 2^32 := hdata p hpmem
    obtain ⟨c1, c2, c3, c4⟩ := channels_lt p
    have s1 := channels_createPixel (getBlue p) (getRed p) (getGreen p) (getAlpha p) c3 c1 c2 c4
    rw [s1.1, s1.2.1, s1.2.2.1, s1.2.2.2]
    have s2 := channels_createPixel (getGreen p) (getBlue p) (getRed p) (getAlpha p) c2 c3 c1 c4
    rw [s2.1, s2.2.1, s2.2.2.1, s2.2.2.2]
    exact createPixel_channels p hp

/-- Closed instance of the three-rotation identity. -/
theorem color_rot_three_cycle_witness :
    imgproc_color_rot (imgproc_color_rot (imgproc_color_rot
      ⟨1, 2, [0xAABBCCDD, 0x01020304]⟩)) = ⟨1, 2, [0xAABBCCDD, 0x01020304]⟩ :=
  color_rot_three_cycle ⟨1, 2, [0xAABBCCDD, 0x01020304]⟩ (by decide) (by decide)

/-- Quotient of a row-major index by the row width recovers the row. -/
theorem row_major_div (i j w : Nat) (hj : j < w) : (i * w + j) / w = i := by
  rw [Nat.add_comm, Nat.mul_comm, Nat.add_mul_div_left j i (by omega), Nat.div_eq_of_lt hj]
  omega

/-- Remainder of a row-major index by the row width recovers the column. -/
theorem row_major_mod (i j w : Nat) (hj : j < w) : (i * w + j) % w = j := by
  rw [Nat.add_comm, Nat.mul_comm, Nat.add_mul_mod_self_left, Nat.mod_eq_of_lt hj]

/-! ### Claim C6: squash is verbatim strided subsampling -/

/-- C6: every squashed pixel is a verbatim copy of the source pixel at
`(i * yfac, j * xfac)`; with factors 1 into a same-size destination the
output is the input; a 4-by-4 image squashed by factors 2 into a 2-by-2
destination copies `source(0,0)` to `(0,0)` and `source(2,2)` to `(1,1)`. -/
theorem squash_subsample :
    (∀ (input_img : Image) (out_w out_h xfac yfac i j : Nat),
      0 < xfac → 0 < yfac → i < out_h → j < out_w →
      i * yfac < input_img.height → j * xfac < input_img.width →
      getPixel (imgproc_squash input_img out_w out_h xfac yfac) i j =
        getPixel input_img (i * yfac) (j * xfac)) ∧
    (∀ input_img : Image,
      input_img.data.length = input_img.width * input_img.height →
      imgproc_squash input_img input_img.width input_img.height 1 1 = input_img) ∧
    (∀ input_img : Image, input_img.width = 4 → input_img.height = 4 →
      getPixel (imgproc_squash input_img 2 2 2 2) 0 0 = getPixel input_img 0 0 ∧
      getPixel (imgproc_squash input_img 2 2 2 2) 1 1 = getPixel input_img 2 2) := by
  have part1 : ∀ (input_img : Image) (out_w out_h xfac yfac i j : Nat),
      0 < xfac → 0 < yfac → i < out_h → j < out_w →
      i * yfac < input_img.height → j * xfac < input_img.width →
      getPixel (imgproc_squash input_img out_w out_h xfac yfac) i j =
        getPixel input_img (i * yfac) (j * xfac) := by
    intro input_img out_w out_h xfac yfac i j _ _ hi hj _ _
    have hidx : i * out_w + j < out_h * out_w := by
      calc i * out_w + j < (i + 1) * out_w := by rw [Nat.succ_mul]; omega
        _ ≤ out_h * out_w := Nat.mul_le_mul_right _ hi
    show ((List.range (out_h * out_w)).map _).getD (i * out_w + j) 0 = _
    rw [getD_map_range _ _ _ hidx]
    show input_img.data.getD
        ((i * out_w + j) / out_w * yfac * input_img.width + (i * out_w + j) % out_w * xfac) 0 = _
    rw [row_major_div i j out_w hj, row_major_mod i j out_w hj]
    rfl
  refine ⟨part1, ?_, ?_⟩
  · intro input_img hlen
    refine Image.ext rfl rfl ?_
    show (List.range (input_img.height * input_img.width)).map _ = input_img.data
    have hcongr : ∀ pos ∈ List.range (input_img.height * input_img.width),
        (fun pos =>
          input_img.data.getD
            (pos / input_img.width * 1 * input_img.width + pos % input_img.width * 1) 0) pos =
        (fun pos => input_img.data.getD pos 0) pos := by
      intro pos _
      have : pos / input_img.width * 1 * input_img.width + pos % input_img.width * 1 = pos := by
        rw [Nat.mul_one, Nat.mul_one, Nat.mul_comm]
        exact Nat.div_add_mod pos input_img.width
      simp only [this]
    rw [List.map_congr_left hcongr]
    exact map_range_getD_eq input_img.data _ (by rw [hlen, Nat.mul_comm])
  · intro input_img h4w h4h
    constructor
    · have h := part1 input_img 2 2 2 2 0 0 (by omega) (by omega) (by omega) (by omega)
        (by omega) (by omega)
      simpa using h
    · have h := part1 input_img 2 2 2 2 1 1 (by omega) (by omega) (by omega) (by omega)
        (by omega) (by omega)
      simpa using h

/-- Closed instance of the squash properties: the spec's 4-by-4 scenario and
the factor-1 identity on a concrete 2-by-2 image. -/
theorem squash_subsample_witness :
    getPixel (imgproc_squash ⟨4, 4, (List.range 16).map (· + 10)⟩ 2 2 2 2) 1 1 =
      getPixel ⟨4, 4, (List.range 16).map (· + 10)⟩ 2 2 ∧
    imgproc_squash ⟨2, 2, [1, 2, 3, 4]⟩ 2 2 1 1 = ⟨2, 2, [1, 2, 3, 4]⟩ :=
  ⟨(squash_subsample.2.2 ⟨4, 4, (List.range 16).map (· + 10)⟩ rfl rfl).2,
   squash_subsample.2.1 ⟨2, 2, [1, 2, 3, 4]⟩ (by decide)⟩

/-- Reading the blur's output buffer at an in-range linear index. -/
theorem blur_getD (img : Image) (d pos : Nat) (h : pos < img.height * img.width) :
    (imgproc_blur img d).data.getD pos 0 =
      ((blurChannelSum img d (pos / img.width) (pos % img.width) 24 /
          blurTotal img d (pos / img.width) (pos % img.width)) <<< 24 % 2^32) |||
      ((blurChannelSum img d (pos / img.width) (pos % img.width) 16 /
          blurTotal img d (pos / img.width) (pos % img.width)) <<< 16 % 2^32) |||
      ((blurChannelSum img d (pos / img.width) (pos % img.width) 8 /
          blurTotal img d (pos / img.width) (pos % img.width)) <<< 8 % 2^32) |||
      (img.data.getD (pos / img.width * img.width + pos % img.width) 0 &&& 0xFF) :=
  getD_map_range _ _ _ h

/-- With `blur_dist = 0` the window sum collapses to the center channel. -/
theorem blurChannelSum_zero (img : Image) (i j sh : Nat)
    (hi : i < img.height) (hj : j < img.width) :
    blurChannelSum img 0 i j sh = (img.data.getD (i * img.width + j) 0 >>> sh) &&& 0xFF := by
  unfold blurChannelSum
  rw [show 2 * 0 + 1 = 1 from rfl, Finset.sum_range_one, Finset.sum_range_one,
    if_pos ⟨Nat.zero_le _, by omega, Nat.zero_le _, by omega⟩]
  norm_num

/-- With `blur_dist = 0` the contributor count is exactly 1. -/
theorem blurTotal_zero (img : Image) (i j : Nat)
    (hi : i < img.height) (hj : j < img.width) :
    blurTotal img 0 i j = 1 := by
  unfold blurTotal
  rw [show 2 * 0 + 1 = 1 from rfl, Finset.sum_range_one, Finset.sum_range_one,
    if_pos ⟨Nat.zero_le _, by omega, Nat.zero_le _, by omega⟩]

/-- The center cell always contributes, so the count is positive. -/
theorem blurTotal_pos (img : Image) (d i j : Nat)
    (hi : i < img.height) (hj : j < img.width) :
    1 ≤ blurTotal img d i j := by
  unfold blurTotal
  have hd : d ∈ Finset.range (2 * d + 1) := Finset.mem_range.mpr (by omega)
  have hinner : 1 ≤ ∑ l ∈ Finset.range (2 * d + 1),
      if d ≤ i + d ∧ i + d - d < img.height ∧ d ≤ j + l ∧ j + l - d < img.width
      then (1 : Nat) else 0 := by
    have h : (if d ≤ i + d ∧ i + d - d < img.height ∧ d ≤ j + d ∧ j + d - d < img.width
        then (1 : Nat) else 0) ≤ ∑ l ∈ Finset.range (2 * d + 1),
        if d ≤ i + d ∧ i + d - d < img.height ∧ d ≤ j + l ∧ j + l - d < img.width
        then (1 : Nat) else 0 :=
      Finset.single_le_sum
        (f := fun l => if d ≤ i + d ∧ i + d - d < img.height ∧ d ≤ j + l ∧ j + l - d < img.width
          then (1 : Nat) else 0) (fun _ _ => Nat.zero_le _) hd
    rw [if_pos ⟨by omega, by omega, by omega, by omega⟩] at h
    exact h
  have houter : (∑ l ∈ Finset.range (2 * d + 1),
      if d ≤ i + d ∧ i + d - d < img.height ∧ d ≤ j + l ∧ j + l - d < img.width
      then (1 : Nat) else 0) ≤ ∑ k ∈ Finset.range (2 * d + 1), ∑ l ∈ Finset.range (2 * d + 1),
      if d ≤ i + k ∧ i + k - d < img.height ∧ d ≤ j + l ∧ j + l - d < img.width
      then (1 : Nat) else 0 :=
    Finset.single_le_sum
      (f := fun k => ∑ l ∈ Finset.range (2 * d + 1),
        if d ≤ i + k ∧ i + k - d < img.height ∧ d ≤ j + l ∧ j + l - d < img.width
        then (1 : Nat) else 0) (fun _ _ => Nat.zero_le _) hd
  exact le_trans hinner houter

/-! ### Claim C5: blur with distance 0 is the identity -/

/-- C5: blurring with `blur_dist = 0` reproduces the input image exactly,
every channel of every pixel included. -/
theorem blur_zero_identity (input_img : Image)
    (hlen : input_img.data.length = input_img.width * input_img.height)
    (hdata : ∀ p ∈ input_img.data, p < 2^32) :
    imgproc_blur input_img 0 = input_img := by
  refine Image.ext rfl rfl ?_
  apply List.ext_getElem
  · simp only [imgproc_blur, List.length_map, List.length_range]
    rw [hlen, Nat.mul_comm]
  · intro pos h1 h2
    have hpos : pos < input_img.height * input_img.width := by
      simp only [imgproc_blur, List.length_map, List.length_range] at h1
      exact h1
    have hw : 0 < input_img.width := by
      rcases Nat.eq_zero_or_pos input_img.width with h | h
      · rw [h, Nat.mul_zero] at hpos; omega
      · exact h
    have hi : pos / input_img.width < input_img.height :=
      (Nat.div_lt_iff_lt_mul hw).mpr hpos
    have hj : pos % input_img.width < input_img.width := Nat.mod_lt _ hw
    have hij : pos / input_img.width * input_img.width + pos % input_img.width = pos := by
      rw [Nat.mul_comm]
      exact Nat.div_add_mod pos input_img.width
    rw [← List.getD_eq_getElem (imgproc_blur input_img 0).data 0 h1,
      ← List.getD_eq_getElem input_img.data 0 h2,
      blur_getD input_img 0 pos hpos,
      blurChannelSum_zero input_img _ _ 24 hi hj,
      blurChannelSum_zero input_img _ _ 16 hi hj,
      blurChannelSum_zero input_img _ _ 8 hi hj,
      blurTotal_zero input_img _ _ hi hj,
      Nat.div_one, Nat.div_one, Nat.div_one, hij]
    have hp : input_img.data.getD pos 0 < 2^32 := by
      apply hdata
      rw [List.getD_eq_getElem input_img.data 0 h2]
      exact List.getElem_mem h2
    exact createPixel_channels (input_img.data.getD pos 0) hp

/-- Closed instance of the distance-0 blur identity. -/
theorem blur_zero_identity_witness :
    imgproc_blur ⟨2, 1, [0x01020304, 0xAABBCCDD]⟩ 0 = ⟨2, 1, [0x01020304, 0xAABBCCDD]⟩ :=
  blur_zero_identity ⟨2, 1, [0x01020304, 0xAABBCCDD]⟩ (by decide) (by decide)

/-! ### Claim C3: the blur divisor is never zero -/

/-- C3: for every in-bounds output pixel the contributor count used as the
divisor is at least 1 (the center pixel is always in bounds), and a
`PixelAverager` finalized with a positive count produces a pixel (its
divisions are safe). -/
theorem blur_divisor_positive :
    (∀ (input_img : Image) (blur_dist i j : Nat),
      i < input_img.height → j < input_img.width →
      1 ≤ blurTotal input_img blur_dist i j) ∧
    (∀ pa : PixelAverager, 1 ≤ pa.count → (pa_avg_pixel pa).isSome = true) := by
  constructor
  · intro img d i j hi hj
    exact blurTotal_pos img d i j hi hj
  · intro pa h
    unfold pa_avg_pixel
    rw [if_neg (by omega)]
    rfl

/-- Closed instance of the divisor positivity: a corner pixel with
`blur_dist = 1` and a finalizable averager. -/
theorem blur_divisor_positive_witness :
    1 ≤ blurTotal ⟨1, 1, [0]⟩ 1 0 0 ∧ (pa_avg_pixel ⟨3, 4, 5, 6, 2⟩).isSome = true :=
  ⟨blur_divisor_positive.1 ⟨1, 1, [0]⟩ 1 0 0 (by decide) (by decide),
   blur_divisor_positive.2 ⟨3, 4, 5, 6, 2⟩ (by decide)⟩

/-- Reindexing a shifted window sum: summing over offsets `k ∈ [0, 2d]`
with the in-bounds guard equals summing over the absolute coordinates
`x ∈ [0, n)` that lie within distance `d` of `t`. -/
theorem sum_window_shift (n d t : Nat) (g : Nat → Nat) :
    (∑ k ∈ Finset.range (2 * d + 1), if d ≤ t + k ∧ t + k - d < n then g (t + k - d) else 0)
      = ∑ x ∈ Finset.range n, if t ≤ x + d ∧ x ≤ t + d then g x else 0 := by
  rw [← Finset.sum_filter, ← Finset.sum_filter]
  refine Finset.sum_nbij' (fun k => t + k - d) (fun x => x + d - t) ?_ ?_ ?_ ?_ ?_
  · intro k hk
    simp only [Finset.mem_filter, Finset.mem_range] at hk ⊢
    omega
  · intro x hx
    simp only [Finset.mem_filter, Finset.mem_range] at hx ⊢
    omega
  · intro k hk
    simp only [Finset.mem_filter, Finset.mem_range] at hk
    show t + k - d + d - t = k
    omega
  · intro x hx
    simp only [Finset.mem_filter, Finset.mem_range] at hx
    show t + (x + d - t) - d = x
    omega
  · intro k _
    rfl

/-- Two-dimensional version of `sum_window_shift`, matching the shape of the
blur accumulation loops. -/
theorem blur_sum2_shift (h w d i j : Nat) (f : Nat → Nat → Nat) :
    (∑ k ∈ Finset.range (2 * d + 1), ∑ l ∈ Finset.range (2 * d + 1),
      if d ≤ i + k ∧ i + k - d < h ∧ d ≤ j + l ∧ j + l - d < w
      then f (i + k - d) (j + l - d) else 0)
    = ∑ x ∈ Finset.range h, ∑ y ∈ Finset.range w,
      if i ≤ x + d ∧ x ≤ i + d ∧ j ≤ y + d ∧ y ≤ j + d then f x y else 0 := by
  have step1 : ∀ k, (∑ l ∈ Finset.range (2 * d + 1),
      if d ≤ i + k ∧ i + k - d < h ∧ d ≤ j + l ∧ j + l - d < w
      then f (i + k - d) (j + l - d) else 0)
      = if d ≤ i + k ∧ i + k - d < h then
          (∑ l ∈ Finset.range (2 * d + 1),
            if d ≤ j + l ∧ j + l - d < w then f (i + k - d) (j + l - d) else 0)
        else 0 := by
    intro k
    by_cases hk : d ≤ i + k ∧ i + k - d < h
    · rw [if_pos hk]
      apply Finset.sum_congr rfl
      intro l _
      by_cases hl : d ≤ j + l ∧ j + l - d < w
      · rw [if_pos ⟨hk.1, hk.2, hl.1, hl.2⟩, if_pos hl]
      · rw [if_neg (by tauto), if_neg hl]
    · rw [if_neg hk, Finset.sum_eq_zero]
      intro l _
      rw [if_neg (by tauto)]
  calc (∑ k ∈ Finset.range (2 * d + 1), ∑ l ∈ Finset.range (2 * d + 1),
      if d ≤ i + k ∧ i + k - d < h ∧ d ≤ j + l ∧ j + l - d < w
      then f (i + k - d) (j + l - d) else 0)
      = ∑ k ∈ Finset.range (2 * d + 1),
        if d ≤ i + k ∧ i + k - d < h then
          (∑ l ∈ Finset.range (2 * d + 1),
            if d ≤ j + l ∧ j + l - d < w then f (i + k - d) (j + l - d) else 0)
        else 0 := Finset.sum_congr rfl (fun k _ => step1 k)
    _ = ∑ x ∈ Finset.range h,
        if i ≤ x + d ∧ x ≤ i + d then
          (∑ l ∈ Finset.range (2 * d + 1),
            if d ≤ j + l ∧ j + l - d < w then f x (j + l - d) else 0)
        else 0 :=
        sum_window_shift h d i (fun x => ∑ l ∈ Finset.range (2 * d + 1),
          if d ≤ j + l ∧ j + l - d < w then f x (j + l - d) else 0)
    _ = ∑ x ∈ Finset.range h,
        if i ≤ x + d ∧ x ≤ i + d then
          (∑ y ∈ Finset.range w, if j ≤ y + d ∧ y ≤ j + d then f x y else 0)
        else 0 := by
        apply Finset.sum_congr rfl
        intro x _
        by_cases hx : i ≤ x + d ∧ x ≤ i + d
        · rw [if_pos hx, if_pos hx, sum_window_shift w d j (fun y => f x y)]
        · rw [if_neg hx, if_neg hx]
    _ = ∑ x ∈ Finset.range h, ∑ y ∈ Finset.range w,
        if i ≤ x + d ∧ x ≤ i + d ∧ j ≤ y + d ∧ y ≤ j + d then f x y else 0 := by
        apply Finset.sum_congr rfl
        intro x _
        by_cases hx : i ≤ x + d ∧ x ≤ i + d
        · rw [if_pos hx]
          apply Finset.sum_congr rfl
          intro y _
          by_cases hy : j ≤ y + d ∧ y ≤ j + d
          · rw [if_pos hy, if_pos ⟨hx.1, hx.2, hy.1, hy.2⟩]
          · rw [if_neg hy, if_neg (by tauto)]
        · rw [if_neg hx, Finset.sum_eq_zero]
          intro y _
          rw [if_neg (by tauto)]

/-- The loop accumulation of a channel equals the sum over the spec's
in-bounds window. -/
theorem blurChannelSum_eq_window (img : Image) (d i j sh : Nat) :
    blurChannelSum img d i j sh =
      ∑ c ∈ blurWindow img.height img.width d i j,
        ((img.data.getD (c.1 * img.width + c.2) 0 >>> sh) &&& 0xFF) := by
  unfold blurChannelSum blurWindow
  rw [Finset.sum_filter, Finset.sum_product]
  exact blur_sum2_shift img.height img.width d i j
    (fun x y => (img.data.getD (x * img.width + y) 0 >>> sh) &&& 0xFF)

/-- The loop's contributor count equals the size of the spec's window. -/
theorem blurTotal_eq_card (img : Image) (d i j : Nat) :
    blurTotal img d i j = (blurWindow img.height img.width d i j).card := by
  unfold blurTotal blurWindow
  rw [Finset.card_eq_sum_ones, Finset.sum_filter, Finset.sum_product]
  exact blur_sum2_shift img.height img.width d i j (fun x y => 1)

/-- Each channel sum is at most 255 per contributor. -/
theorem blurChannelSum_le (img : Image) (d i j sh : Nat) :
    blurChannelSum img d i j sh ≤ 255 * blurTotal img d i j := by
  unfold blurChannelSum blurTotal
  rw [Finset.mul_sum]
  apply Finset.sum_le_sum
  intro k _
  rw [Finset.mul_sum]
  apply Finset.sum_le_sum
  intro l _
  by_cases hc : d ≤ i + k ∧ i + k - d < img.height ∧ d ≤ j + l ∧ j + l - d < img.width
  · rw [if_pos hc, if_pos hc, Nat.mul_one]
    exact Nat.and_le_right
  · rw [if_neg hc, if_neg hc, Nat.mul_zero]

/-! ### Claim C2: blur averages exactly the in-bounds window, alpha copied -/

/-- C2: every blurred pixel's red, green and blue channels are the truncated
average (sum over contributors divided by their count) of the corresponding
channels of exactly the in-bounds pixels of the square window of radius
`blur_dist`, and its alpha channel is copied verbatim from the input pixel. -/
theorem blur_window_average (input_img : Image) (blur_dist i j : Nat)
    (hi : i < input_img.height) (hj : j < input_img.width) :
    getRed (getPixel (imgproc_blur input_img blur_dist) i j) =
      (∑ c ∈ blurWindow input_img.height input_img.width blur_dist i j,
        getRed (getPixel input_img c.1 c.2)) /
        (blurWindow input_img.height input_img.width blur_dist i j).card ∧
    getGreen (getPixel (imgproc_blur input_img blur_dist) i j) =
      (∑ c ∈ blurWindow input_img.height input_img.width blur_dist i j,
        getGreen (getPixel input_img c.1 c.2)) /
        (blurWindow input_img.height input_img.width blur_dist i j).card ∧
    getBlue (getPixel (imgproc_blur input_img blur_dist) i j) =
      (∑ c ∈ blurWindow input_img.height input_img.width blur_dist i j,
        getBlue (getPixel input_img c.1 c.2)) /
        (blurWindow input_img.height input_img.width blur_dist i j).card ∧
    getAlpha (getPixel (imgproc_blur input_img blur_dist) i j) =
      getAlpha (getPixel input_img i j) := by
  have hidx : i * input_img.width + j < input_img.height * input_img.width := by
    calc i * input_img.width + j < (i + 1) * input_img.width := by rw [Nat.succ_mul]; omega
      _ ≤ input_img.height * input_img.width := Nat.mul_le_mul_right _ hi
  have hdiv := row_major_div i j input_img.width hj
  have hmod := row_major_mod i j input_img.width hj
  have hpix : getPixel (imgproc_blur input_img blur_dist) i j =
      createPixel
        (blurChannelSum input_img blur_dist i j 24 / blurTotal input_img blur_dist i j)
        (blurChannelSum input_img blur_dist i j 16 / blurTotal input_img blur_dist i j)
        (blurChannelSum input_img blur_dist i j 8 / blurTotal input_img blur_dist i j)
        (getAlpha (getPixel input_img i j)) := by
    show (imgproc_blur input_img blur_dist).data.getD (i * input_img.width + j) 0 = _
    rw [blur_getD input_img blur_dist _ hidx, hdiv, hmod]
    rfl
  have htot := blurTotal_pos input_img blur_dist i j hi hj
  have hdivlt : ∀ sh : Nat,
      blurChannelSum input_img blur_dist i j sh / blurTotal input_img blur_dist i j < 256 := by
    intro sh
    have hle := blurChannelSum_le input_img blur_dist i j sh
    exact (Nat.div_lt_iff_lt_mul (by omega)).mpr (by omega)
  have halpha : getAlpha (getPixel input_img i j) < 256 :=
    (channels_lt (getPixel input_img i j)).2.2.2
  have hch := channels_createPixel _ _ _ _ (hdivlt 24) (hdivlt 16) (hdivlt 8) halpha
  refine ⟨?_, ?_, ?_, ?_⟩
  · rw [hpix, hch.1, blurChannelSum_eq_window, blurTotal_eq_card]
    rfl
  · rw [hpix, hch.2.1, blurChannelSum_eq_window, blurTotal_eq_card]
    rfl
  · rw [hpix, hch.2.2.1, blurChannelSum_eq_window, blurTotal_eq_card]
    rfl
  · rw [hpix, hch.2.2.2]

/-- Closed instance of the blur window average at a corner pixel of the
spec's 2-by-2 image with radius 1. -/
theorem blur_window_average_witness :
    getRed (getPixel (imgproc_blur ⟨2, 2, [0xFF0000FF, 0x00FF00FF, 0x0000FFFF, 0xFFFFFFFF]⟩ 1)
        0 0) =
      (∑ c ∈ blurWindow 2 2 1 0 0,
        getRed (getPixel ⟨2, 2, [0xFF0000FF, 0x00FF00FF, 0x0000FFFF, 0xFFFFFFFF]⟩ c.1 c.2)) /
        (blurWindow 2 2 1 0 0).card ∧
    getGreen (getPixel (imgproc_blur ⟨2, 2, [0xFF0000FF, 0x00FF00FF, 0x0000FFFF, 0xFFFFFFFF]⟩ 1)
        0 0) =
      (∑ c ∈ blurWindow 2 2 1 0 0,
        getGreen (getPixel ⟨2, 2, [0xFF0000FF, 0x00FF00FF, 0x0000FFFF, 0xFFFFFFFF]⟩ c.1 c.2)) /
        (blurWindow 2 2 1 0 0).card ∧
    getBlue (getPixel (imgproc_blur ⟨2, 2, [0xFF0000FF, 0x00FF00FF, 0x0000FFFF, 0xFFFFFFFF]⟩ 1)
        0 0) =
      (∑ c ∈ blurWindow 2 2 1 0 0,
        getBlue (getPixel ⟨2, 2, [0xFF0000FF, 0x00FF00FF, 0x0000FFFF, 0xFFFFFFFF]⟩ c.1 c.2)) /
        (blurWindow 2 2 1 0 0).card ∧
    getAlpha (getPixel (imgproc_blur ⟨2, 2, [0xFF0000FF, 0x00FF00FF, 0x0000FFFF, 0xFFFFFFFF]⟩ 1)
        0 0) =
      getAlpha (getPixel ⟨2, 2, [0xFF0000FF, 0x00FF00FF, 0x0000FFFF, 0xFFFFFFFF]⟩ 0 0) :=
  blur_window_average ⟨2, 2, [0xFF0000FF, 0x00FF00FF, 0x0000FFFF, 0xFFFFFFFF]⟩ 1 0 0
    (by decide) (by decide)

/-- The expand loop body agrees with the spec's parity/edge dispatch at every
output coordinate. -/
theorem expandPixel_eq_spec (input_img : Image) (row col : Nat) :
    expandPixel input_img row col = expandSpec input_img row col := by
  unfold expandPixel expandSpec
  rcases Nat.mod_two_eq_zero_or_one row with hrp | hrp <;>
    rcases Nat.mod_two_eq_zero_or_one col with hcp | hcp <;>
    by_cases hre : col / 2 + 1 ≥ input_img.width <;>
    by_cases hbe : row / 2 + 1 ≥ input_img.height <;>
    simp [hrp, hcp, hre, hbe]

/-! ### Claim C1: expand computes every pixel by the parity/edge dispatch -/

/-- C1: on a destination of doubled dimensions, every expand output pixel at
`(row, col)` is given by the claimed dispatch on the parities of `row` and
`col` and the two edge flags, with all averages (alpha included) taken by the
truncating 2-way and 4-way averagers. -/
theorem expand_parity_dispatch (input_img : Image)
    (row col : Nat) (hr : row < 2 * input_img.height) (hc : col < 2 * input_img.width) :
    (imgproc_expand input_img (2 * input_img.width) (2 * input_img.height)).width =
      2 * input_img.width ∧
    (imgproc_expand input_img (2 * input_img.width) (2 * input_img.height)).height =
      2 * input_img.height ∧
    getPixel (imgproc_expand input_img (2 * input_img.width) (2 * input_img.height)) row col =
      expandSpec input_img row col := by
  refine ⟨rfl, rfl, ?_⟩
  have hidx : row * (2 * input_img.width) + col <
      2 * input_img.width * (2 * input_img.height) := by
    calc row * (2 * input_img.width) + col < (row + 1) * (2 * input_img.width) := by
          rw [Nat.succ_mul row (2 * input_img.width)]; omega
      _ ≤ 2 * input_img.height * (2 * input_img.width) := Nat.mul_le_mul_right _ hr
      _ = 2 * input_img.width * (2 * input_img.height) := Nat.mul_comm _ _
  show ((List.range (2 * input_img.width * (2 * input_img.height))).map _).getD
      (row * (2 * input_img.width) + col) 0 = _
  rw [getD_map_range _ _ _ hidx]
  show expandPixel input_img
      (rowIndex (row * (2 * input_img.width) + col) (2 * input_img.width))
      (columnIndex (row * (2 * input_img.width) + col) (2 * input_img.width)) = _
  rw [show rowIndex (row * (2 * input_img.width) + col) (2 * input_img.width) = row from
      row_major_div row col _ hc,
    show columnIndex (row * (2 * input_img.width) + col) (2 * input_img.width) = col from
      row_major_mod row col _ hc]
  exact expandPixel_eq_spec input_img row col

/-- Closed instance of the expand dispatch at the spec's 2-by-2 scenario,
output pixel `(1, 1)`. -/
theorem expand_parity_dispatch_witness :
    (imgproc_expand ⟨2, 2, [0xFF0000FF, 0x00FF00FF, 0x0000FFFF, 0xFFFFFFFF]⟩ 4 4).width = 4 ∧
    (imgproc_expand ⟨2, 2, [0xFF0000FF, 0x00FF00FF, 0x0000FFFF, 0xFFFFFFFF]⟩ 4 4).height = 4 ∧
    getPixel (imgproc_expand ⟨2, 2, [0xFF0000FF, 0x00FF00FF, 0x0000FFFF, 0xFFFFFFFF]⟩ 4 4) 1 1 =
      expandSpec ⟨2, 2, [0xFF0000FF, 0x00FF00FF, 0x0000FFFF, 0xFFFFFFFF]⟩ 1 1 :=
  expand_parity_dispatch ⟨2, 2, [0xFF0000FF, 0x00FF00FF, 0x0000FFFF, 0xFFFFFFFF]⟩
    1 1 (by decide) (by decide)
